import Mathlib

/-!
Shallow embedding of the go-raptor/connector migration engine.

Source files embedded:
  * `src/pgx/migrator.go` — `PgxMigrator` with `Up`, `Down`, `UpTo`, `DownTo`,
    `Status`, `Version` over a `schema_migrations` history table.
  * `src/bun/postgres/migrator.go` — `PostgresMigrator.Up` (the other methods
    of that variant are `not implemented` stubs).

Modelling conventions:
  * The Go map `Migrations map[string]Migration` is modelled as an association
    list `List (String × Migration)`; the list order is the map's iteration
    order (which Go leaves unspecified), and lookup is first-match.
  * A migration body is opaque Go code receiving an executor.  It is modelled
    by the effects it writes (`upEffects`/`downEffects`, an abstract log of
    schema mutations) together with a failure flag (`upFails`/`downFails`):
    the body performs its writes and then fails iff the flag is set — exactly
    the spec's "a body that writes then fails" scenario.
  * The database is a record of the `schema_migrations` rows, the abstract
    schema-mutation log, and fault-injection sets for the bookkeeping
    INSERT/DELETE statements.  A transaction that is rolled back contributes
    none of its writes; statements executed on the raw connection (outside any
    transaction) take effect immediately.
  * `time.Now()` is modelled by a logical clock (`DB.clock`) that the history
    insert reads and increments.
  * Transaction begin/commit and the SELECT queries are modelled as
    succeeding; the fallible steps exercised by the claims are the migration
    bodies and the bookkeeping INSERT/DELETE.
  * Errors are symbolic: each `MErr` constructor records which `fmt.Errorf`
    site produced the error and the version the Go code wraps into it.
  * `PgxMigrator.DownTo` indexes the migrations map without a presence check,
    so a missing version makes it call `Down` on a nil interface (a runtime
    panic); its model therefore returns an `Option`, with `none` for the
    panic.
-/

/-- A migration unit (`Migration` interface in both `src/pgx/migrator.go` and
`src/bun/postgres/migrator.go`): an up action, a down action and a name.  The
actions are modelled by the schema mutations they write plus a failure flag. -/
structure Migration where
  name : String
  upEffects : List String
  upFails : Bool
  downEffects : List String
  downFails : Bool
deriving DecidableEq

/-- `Migrations map[string]Migration` as an association list; the list order is
the map's iteration order. -/
abbrev Migrations := List (String × Migration)

/-- A row of the `schema_migrations` history table
(`SchemaMigration` struct in the source). -/
structure SchemaMigration where
  version : String
  name : String
  executedAt : Nat
deriving DecidableEq

/-- The database state: history table, abstract schema-mutation log,
fault-injection sets for the bookkeeping statements, and a logical clock
standing in for `time.Now()`. -/
structure DB where
  tableExists : Bool
  history : List SchemaMigration
  schema : List String
  failInsert : List String
  failDelete : List String
  clock : Nat
deriving DecidableEq

/-- Symbolic errors, one constructor per `fmt.Errorf` site reached in the
modelled paths, each carrying the version the Go code wraps into the message. -/
inductive MErr where
  | execFailed (version : String)
  | recordFailed (version : String)
  | notFound (version : String)
  | downFailed (version : String)
  | deleteFailed (version : String)
deriving DecidableEq

/-- `connector.MigrationStatus`. -/
structure MigrationStatus where
  version : String
  name : String
  executedAt : Option Nat
  isApplied : Bool
deriving DecidableEq

/-- Go's `<` on strings (byte-wise lexicographic comparison), on the
character lists of the two strings.  Defined executably so that the model can
be evaluated on concrete inputs. -/
def charsLt : List Char → List Char → Bool
  | [], [] => false
  | [], _ :: _ => true
  | _ :: _, [] => false
  | a :: as, b :: bs =>
    if a < b then true
    else if b < a then false
    else charsLt as bs

/-- Go's `a < b` on version strings. -/
def strLt (a b : String) : Bool :=
  charsLt a.data b.data

/-- Go's `a <= b` on version strings. -/
def strLe (a b : String) : Bool :=
  !(strLt b a)

/-- The versions currently recorded in the history table
(`SELECT version FROM schema_migrations`). -/
def historyVersions (db : DB) : List String :=
  db.history.map SchemaMigration.version

/-- Go map indexing `m.migrations[version]` (first match in iteration order;
map keys are unique, so first-match agrees with the map). -/
def lookupMig (m : Migrations) (v : String) : Option Migration :=
  (m.find? (fun p => p.1 == v)).map Prod.snd

/-- `SELECT version FROM schema_migrations ORDER BY version DESC LIMIT 1`:
the maximum recorded version, or `none` on an empty table (`pgx.ErrNoRows`). -/
def maxStr : List String → Option String
  | [] => none
  | v :: vs =>
    match maxStr vs with
    | none => some v
    | some w => some (if strLe v w then w else v)

/-- One committed iteration of `PgxMigrator.Up`'s loop: the body's writes, the
history INSERT with the current timestamp, and the commit. -/
def commitStep (db : DB) (p : String × Migration) : DB :=
  { db with
    schema := db.schema ++ p.2.upEffects
    history := db.history ++ [⟨p.1, p.2.name, db.clock⟩]
    clock := db.clock + 1 }

/-- Committing a whole list of pending migrations in order. -/
def commitAll (db : DB) (l : Migrations) : DB :=
  l.foldl commitStep db

/-- Whether one iteration of `PgxMigrator.Up`'s loop succeeds: the body does
not fail and the history INSERT for this version does not fail. -/
def stepOK (failInsert : List String) (p : String × Migration) : Bool :=
  !p.2.upFails && !(failInsert.contains p.1)

/-- The error `PgxMigrator.Up` returns for the step that failed. -/
def stepErr (p : String × Migration) : MErr :=
  if p.2.upFails then MErr.execFailed p.1 else MErr.recordFailed p.1

/-- The loop of `PgxMigrator.Up` (`src/pgx/migrator.go:86-111`): per pending
version, begin a transaction, run `migration.Up(tx)`, INSERT the history
record, commit; roll back and return on the first failure.  Also returns the
list of versions whose `Up` action was invoked, in invocation order. -/
def upRun (db : DB) : Migrations → DB × List String × Option MErr
  | [] => (db, ([], none))
  | p :: rest =>
    if p.2.upFails then
      -- tx.Rollback(): the body's writes are discarded, db is unchanged
      (db, ([p.1], some (MErr.execFailed p.1)))
    else if db.failInsert.contains p.1 then
      -- tx.Rollback(): the body's writes and the INSERT are discarded
      (db, ([p.1], some (MErr.recordFailed p.1)))
    else
      let r := upRun (commitStep db p) rest
      (r.1, (p.1 :: r.2.1, r.2.2))

/-- The pending set of `PgxMigrator.Up` (`src/pgx/migrator.go:78-84`): map
entries whose version is not recorded, sorted ascending by version
(`sort.Strings(pending)`, followed by the per-version map lookup). -/
def pendingPairs (m : Migrations) (db : DB) : Migrations :=
  (m.filter (fun p => !((historyVersions db).contains p.1))).insertionSort
    (fun a b => strLe a.1 b.1 = true)

/-- `PgxMigrator.Up` (`src/pgx/migrator.go:56-114`): create the history table
if absent, read the executed versions, run the sorted pending list. -/
def pgxUp (m : Migrations) (db : DB) : DB × List String × Option MErr :=
  let db0 := { db with tableExists := true }
  upRun db0 (pendingPairs m db0)

/-- `PgxMigrator.Down` (`src/pgx/migrator.go:116-162`): query the highest
recorded version (no-op success when the table is empty), look the unit up in
the registry (error when absent), then run `migration.Down(tx)` and DELETE the
record in one transaction. -/
def pgxDown (m : Migrations) (db : DB) : DB × List String × Option MErr :=
  match maxStr (historyVersions db) with
  | none => (db, ([], none))
  | some v =>
    match lookupMig m v with
    | none => (db, ([], some (MErr.notFound v)))
    | some mig =>
      if mig.downFails then
        (db, ([v], some (MErr.downFailed v)))
      else if db.failDelete.contains v then
        (db, ([v], some (MErr.deleteFailed v)))
      else
        ({ db with
            schema := db.schema ++ mig.downEffects
            history := db.history.filter (fun r => !(r.version == v)) },
         ([v], none))

/-- The loop of `PgxMigrator.UpTo` (`src/pgx/migrator.go:179-194`): per
version, begin a transaction, run `migration.Up(tx)`, commit.  No
`schema_migrations` INSERT occurs in this loop. -/
def upToRun (db : DB) : Migrations → DB × List String × Option MErr
  | [] => (db, ([], none))
  | p :: rest =>
    if p.2.upFails then
      (db, ([p.1], some (MErr.execFailed p.1)))
    else
      let r := upToRun { db with schema := db.schema ++ p.2.upEffects } rest
      (r.1, (p.1 :: r.2.1, r.2.2))

/-- `PgxMigrator.UpTo` (`src/pgx/migrator.go:164-197`): create the history
table if absent, collect every registered version `≤ target` (the recorded
set is never consulted), sort ascending, run the loop. -/
def pgxUpTo (m : Migrations) (db : DB) (target : String) :
    DB × List String × Option MErr :=
  let db0 := { db with tableExists := true }
  upToRun db0 ((m.filter (fun p => strLe p.1 target)).insertionSort
    (fun a b => strLe a.1 b.1 = true))

/-- `SELECT version FROM schema_migrations WHERE version > $1 ORDER BY version
DESC` in `PgxMigrator.DownTo`. -/
def downVersions (db : DB) (target : String) : List String :=
  ((historyVersions db).filter (fun v => strLt target v)).insertionSort
    (fun a b => strLe b a = true)

/-- The loop of `PgxMigrator.DownTo` (`src/pgx/migrator.go:220-235`): per
version, `migration := m.migrations[v]` with no presence check — a missing
version yields a nil interface and `migration.Down(tx)` panics (`none`); then
begin a transaction, run `Down`, commit.  No `schema_migrations` DELETE
occurs in this loop. -/
def downToRun (m : Migrations) (db : DB) :
    List String → Option (DB × List String × Option MErr)
  | [] => some (db, ([], none))
  | v :: rest =>
    match lookupMig m v with
    | none => none
    | some mig =>
      if mig.downFails then
        some (db, ([v], some (MErr.downFailed v)))
      else
        match downToRun m { db with schema := db.schema ++ mig.downEffects } rest with
        | none => none
        | some r => some (r.1, (v :: r.2.1, r.2.2))

/-- `PgxMigrator.DownTo` (`src/pgx/migrator.go:199-238`). -/
def pgxDownTo (m : Migrations) (db : DB) (target : String) :
    Option (DB × List String × Option MErr) :=
  downToRun m db (downVersions db target)

/-- One row of `PgxMigrator.Status`'s result: the registry entry joined with
the recorded row for its version, when one exists. -/
def statusEntry (db : DB) (p : String × Migration) : MigrationStatus :=
  match db.history.find? (fun r => r.version == p.1) with
  | some r => ⟨p.1, r.name, some r.executedAt, true⟩
  | none => ⟨p.1, p.2.name, none, false⟩

/-- `PgxMigrator.Status` (`src/pgx/migrator.go:240-282`): one entry per
registry entry (recorded rows without a registry entry contribute nothing),
sorted ascending by version (`sort.Slice`). -/
def pgxStatus (m : Migrations) (db : DB) : List MigrationStatus :=
  (m.map (statusEntry db)).insertionSort
    (fun a b => strLe a.version b.version = true)

/-- `PgxMigrator.Version` (`src/pgx/migrator.go:284-300`): the highest
recorded version; `pgx.ErrNoRows` on an empty table is turned into
`("", nil)`. -/
def pgxVersion (db : DB) : String × Option MErr :=
  match maxStr (historyVersions db) with
  | none => ("", none)
  | some v => (v, none)

/-- The loop of `PostgresMigrator.Up` (`src/bun/postgres/migrator.go:94-123`):
per pending version, begin a transaction, run `migration.Up(pm.db)` — on the
raw database handle, OUTSIDE the transaction, so its writes take effect
immediately and survive `tx.Rollback()` — then INSERT the history record
through the transaction and commit. -/
def bunRun (db : DB) : Migrations → DB × List String × Option MErr
  | [] => (db, ([], none))
  | p :: rest =>
    let dbMut := { db with schema := db.schema ++ p.2.upEffects }
    if p.2.upFails then
      -- tx.Rollback() cannot undo writes made on pm.db
      (dbMut, ([p.1], some (MErr.execFailed p.1)))
    else if db.failInsert.contains p.1 then
      -- the INSERT is rolled back, the body's writes stay
      (dbMut, ([p.1], some (MErr.recordFailed p.1)))
    else
      let r := bunRun { dbMut with
        history := dbMut.history ++ [⟨p.1, p.2.name, dbMut.clock⟩]
        clock := dbMut.clock + 1 } rest
      (r.1, (p.1 :: r.2.1, r.2.2))

/-- `PostgresMigrator.Up` (`src/bun/postgres/migrator.go:66-126`): create the
history table if absent, read the executed versions, collect the pending
versions in map-iteration order — no sort is applied — and run the loop. -/
def bunUp (m : Migrations) (db : DB) : DB × List String × Option MErr :=
  let db0 := { db with tableExists := true }
  bunRun db0 (m.filter (fun p => !((historyVersions db0).contains p.1)))

/-! ### Concrete inputs used by the per-claim theorems -/

/-- A migration whose body writes one schema mutation and succeeds. -/
def c1Mig : Migration := ⟨"create users", ["create_users_table"], false, [], false⟩

/-- Registry with the single migration `001`. -/
def c1Reg : Migrations := [("001", c1Mig)]

/-- Empty database on which the history INSERT for version `001` fails. -/
def c1DB : DB := ⟨true, [], [], ["001"], [], 0⟩

def c2MigOK : Migration := ⟨"a", ["e1"], false, [], false⟩

def c2MigBad : Migration := ⟨"b", ["e2"], true, [], false⟩

def c2Reg : Migrations := [("002", c2MigBad), ("001", c2MigOK)]

def c2DB : DB := ⟨false, [], [], [], [], 0⟩

def c3MigA : Migration := ⟨"a", ["eff_a"], false, [], false⟩

def c3MigB : Migration := ⟨"b", ["eff_b"], false, [], false⟩

def c3Reg : Migrations := [("1", c3MigA), ("2", c3MigB)]

/-- Database on which version `1` is already applied and recorded. -/
def c3DB : DB := ⟨true, [⟨"1", "a", 0⟩], ["eff_a"], [], [], 1⟩

def c4Mig : Migration := ⟨"m", [], false, ["down_eff"], false⟩

def c4Reg : Migrations :=
  [("1", c4Mig), ("2", c4Mig), ("3", c4Mig), ("4", c4Mig)]

/-- Database with versions `1`–`4` all applied and recorded. -/
def c4DB : DB :=
  ⟨true, [⟨"1", "m", 0⟩, ⟨"2", "m", 1⟩, ⟨"3", "m", 2⟩, ⟨"4", "m", 3⟩], [], [], [], 4⟩

def c5Mig : Migration := ⟨"m1", [], false, [], false⟩

def c5Reg : Migrations := [("001", c5Mig)]

/-- History containing the registered version `001` and the orphan `005`. -/
def c5DB : DB := ⟨true, [⟨"001", "m1", 0⟩, ⟨"005", "ghost", 1⟩], [], [], [], 2⟩

/-- History containing only version `005`, which no registry below knows. -/
def c6DB : DB := ⟨true, [⟨"005", "x", 0⟩], [], [], [], 1⟩

def c7Mig (nm : String) : Migration := ⟨nm, [], false, [], false⟩

/-- Registry whose map-iteration order is `003, 001, 002`. -/
def c7Reg : Migrations :=
  [("003", c7Mig "c"), ("001", c7Mig "a"), ("002", c7Mig "b")]

def c7DB : DB := ⟨false, [], [], [], [], 0⟩

def c8Reg : Migrations := [("001", ⟨"a", ["e1"], false, [], false⟩)]

def c8DB : DB := ⟨false, [], [], [], [], 0⟩

def c9DB : DB := ⟨true, [], [], [], [], 0⟩

/-- History containing only version `005`, not present in the registry. -/
def c10DB : DB := ⟨true, [⟨"005", "x", 0⟩], [], [], [], 1⟩


/-! ### The executable comparison agrees with the lexicographic string order -/

/-- `charsLt` decides the lexicographic order on character lists. -/
theorem charsLt_iff : ∀ as bs : List Char, charsLt as bs = true ↔ as < bs
  | [], [] => by
    simp [charsLt]
  | [], b :: bs => by
    simp [charsLt]
    exact List.Lex.nil
  | a :: as, [] => by
    simp [charsLt]
  | a :: as, b :: bs => by
    unfold charsLt
    rcases lt_trichotomy a b with h1 | h1 | h1
    · simp [h1]
      exact List.Lex.rel h1
    · subst h1
      simp [lt_irrefl]
      rw [charsLt_iff as bs]
      constructor
      · exact fun h => List.Lex.cons h
      · intro h
        cases h with
        | cons h' => exact h'
        | rel h' => exact absurd h' (lt_irrefl a)
    · have h2 : ¬ a < b := asymm h1
      simp [h2, h1]
      exact le_of_lt (List.Lex.rel h1)

/-- `strLt` decides `<` on strings. -/
theorem strLt_iff (a b : String) : strLt a b = true ↔ a < b := by
  rw [String.lt_iff_toList_lt]
  exact charsLt_iff a.data b.data

/-- `strLe` decides `≤` on strings. -/
theorem strLe_iff (a b : String) : strLe a b = true ↔ a ≤ b := by
  have h : strLe a b = true ↔ ¬(strLt b a = true) := by
    cases hx : strLt b a <;> simp [strLe, hx]
  rw [h, strLt_iff, not_lt]

/-! ### Helper lemmas about the `Up` loop -/

theorem commitStep_failInsert (db : DB) (p : String × Migration) :
    (commitStep db p).failInsert = db.failInsert := rfl

theorem commitStep_historyVersions (db : DB) (p : String × Migration) :
    historyVersions (commitStep db p) = historyVersions db ++ [p.1] := by
  simp [commitStep, historyVersions]

/-- The `Up` loop leaves the table-existence flag alone. -/
theorem upRun_tableExists (l : Migrations) :
    ∀ db : DB, (upRun db l).1.tableExists = db.tableExists := by
  induction l with
  | nil => intro db; rfl
  | cons p rest ih =>
    intro db
    by_cases hu : p.2.upFails
    · simp [upRun, hu]
    · by_cases hc : p.1 ∈ db.failInsert
      · simp [upRun, hu, hc]
      · simp only [upRun, hu, Bool.false_eq_true, if_false]
        simp [hc]
        exact ih (commitStep db p)

/-- When every step of the `Up` loop succeeds, the loop commits every pending
migration in order and returns no error. -/
theorem upRun_all_ok (l : Migrations) :
    ∀ db : DB, (∀ p ∈ l, stepOK db.failInsert p = true) →
      upRun db l = (commitAll db l, (l.map Prod.fst, none)) := by
  induction l with
  | nil => intro db _; rfl
  | cons p rest ih =>
    intro db h
    have hp := h p (List.mem_cons_self p rest)
    rw [stepOK, Bool.and_eq_true, Bool.not_eq_true', Bool.not_eq_true'] at hp
    have hrest : ∀ q ∈ rest, stepOK (commitStep db p).failInsert q = true :=
      fun q hq => h q (List.mem_cons_of_mem _ hq)
    simp only [upRun, hp.1, hp.2, Bool.false_eq_true, if_false,
      ih (commitStep db p) hrest, commitAll, List.foldl_cons, List.map_cons]

/-- When the pending list splits as a successful prefix `g` followed by a
failing step `b`, the `Up` loop commits exactly `g`, invokes `b`'s action (or
its INSERT), rolls `b`'s transaction back, and stops with `b`'s error. -/
theorem upRun_split (g : Migrations) :
    ∀ (db : DB) (b : String × Migration) (r : Migrations),
      (∀ p ∈ g, stepOK db.failInsert p = true) →
      stepOK db.failInsert b = false →
      upRun db (g ++ b :: r) =
        (commitAll db g, (g.map Prod.fst ++ [b.1], some (stepErr b))) := by
  induction g with
  | nil =>
    intro db b r _ hb
    rw [stepOK, Bool.and_eq_false_iff, Bool.not_eq_false', Bool.not_eq_false'] at hb
    by_cases hu : b.2.upFails
    · simp [upRun, hu, stepErr, commitAll]
    · have hc : b.1 ∈ db.failInsert := by
        rcases hb with h | h
        · exact absurd h (by simpa using hu)
        · simpa using h
      simp [upRun, hu, hc, stepErr, commitAll]
  | cons p g' ih =>
    intro db b r hg hb
    have hp := hg p (List.mem_cons_self p g')
    rw [stepOK, Bool.and_eq_true, Bool.not_eq_true', Bool.not_eq_true'] at hp
    have hg' : ∀ q ∈ g', stepOK (commitStep db p).failInsert q = true :=
      fun q hq => hg q (List.mem_cons_of_mem _ hq)
    have hb' : stepOK (commitStep db p).failInsert b = false := hb
    rw [List.cons_append]
    simp only [upRun, hp.1, hp.2, Bool.false_eq_true, if_false]
    rw [ih (commitStep db p) b r hg' hb']
    simp [commitAll, List.foldl_cons]

/-- A run of the `Up` loop that returns no error has recorded exactly the
versions it was given, appended in order to the previous history. -/
theorem upRun_err_none (l : Migrations) :
    ∀ db : DB, (upRun db l).2.2 = none →
      historyVersions (upRun db l).1 = historyVersions db ++ l.map Prod.fst := by
  induction l with
  | nil => intro db _; simp [upRun]
  | cons p rest ih =>
    intro db h
    by_cases hu : p.2.upFails
    · exact absurd h (by simp [upRun, hu])
    · by_cases hc : p.1 ∈ db.failInsert
      · exact absurd h (by simp [upRun, hu, hc])
      · have h' : (upRun (commitStep db p) rest).2.2 = none := by
          simpa [upRun, hu, hc] using h
        simp [upRun, hu, hc, List.map_cons]
        rw [ih (commitStep db p) h', commitStep_historyVersions,
          List.append_assoc, List.singleton_append]

/-! ### Helper lemmas about `maxStr` -/

theorem maxStr_eq_none (l : List String) : maxStr l = none ↔ l = [] := by
  cases l with
  | nil => simp [maxStr]
  | cons v vs =>
    simp only [maxStr]
    cases maxStr vs <;> simp

theorem maxStr_le (l : List String) :
    ∀ w, maxStr l = some w → ∀ v ∈ l, v ≤ w := by
  induction l with
  | nil => intro w hw; cases hw
  | cons u vs ih =>
    intro w hw v hv
    cases hm : maxStr vs with
    | none =>
      simp only [maxStr, hm] at hw
      have hvs : vs = [] := (maxStr_eq_none vs).mp hm
      subst hvs
      have hww := Option.some.inj hw
      subst hww
      rcases List.mem_singleton.mp hv with rfl
      exact le_refl v
    | some u' =>
      simp only [maxStr, hm] at hw
      have hww := Option.some.inj hw
      by_cases hc : strLe u u' = true
      · rw [if_pos hc] at hww
        subst hww
        rcases List.mem_cons.mp hv with rfl | hv'
        · exact (strLe_iff v u').mp hc
        · exact ih u' hm v hv'
      · rw [if_neg hc] at hww
        subst hww
        rcases List.mem_cons.mp hv with rfl | hv'
        · exact le_refl v
        · have h1 : v ≤ u' := ih u' hm v hv'
          have h2 : u' ≤ u := le_of_not_le (fun h => hc ((strLe_iff u u').mpr h))
          exact le_trans h1 h2

theorem maxStr_mem (l : List String) :
    ∀ w, maxStr l = some w → w ∈ l := by
  induction l with
  | nil => intro w hw; cases hw
  | cons u vs ih =>
    intro w hw
    cases hm : maxStr vs with
    | none =>
      simp only [maxStr, hm] at hw
      have hww := Option.some.inj hw
      subst hww
      exact List.mem_cons_self _ _
    | some u' =>
      simp only [maxStr, hm] at hw
      have hww := Option.some.inj hw
      by_cases hc : strLe u u' = true
      · rw [if_pos hc] at hww
        subst hww
        exact List.mem_cons_of_mem _ (ih _ hm)
      · rw [if_neg hc] at hww
        subst hww
        exact List.mem_cons_self _ _

/-- The maximum of a list that contains `v` and is bounded by `v` is `v`. -/
theorem maxStr_eq_some (l : List String) (v : String)
    (hmem : v ∈ l) (hmax : ∀ w ∈ l, w ≤ v) : maxStr l = some v := by
  cases hm : maxStr l with
  | none =>
    rw [maxStr_eq_none] at hm
    subst hm
    cases hmem
  | some w =>
    have h1 : v ≤ w := maxStr_le l w hm v hmem
    have h2 : w ≤ v := hmax w (maxStr_mem l w hm)
    rw [le_antisymm h1 h2]

/-! ### Claim theorems -/

/-- C1: the claim asserts that in every Migrator variant's `Up` the migration
body and the bookkeeping insert share one rolled-back transaction, so that a
failed run leaves no schema mutation and no record.  The bun
`PostgresMigrator.Up` violates this: the body is invoked as
`migration.Up(pm.db)` on the raw handle, outside the transaction, so when the
history INSERT for version `001` fails and the transaction is rolled back,
the body's schema mutation is still visible while no record exists. -/
theorem bunUp_body_escapes_transaction :
    (bunUp c1Reg c1DB).2.2 = some (MErr.recordFailed "001")
    ∧ (bunUp c1Reg c1DB).1.history = []
    ∧ (bunUp c1Reg c1DB).1.schema = ["create_users_table"] := by decide

/-- C3: the claim asserts that `PgxMigrator.UpTo(target)` applies exactly the
registered versions `≤ target` that are not yet applied and records each one.
The code consults neither the history (it re-runs the already-applied version
`1`) nor inserts any record (afterwards `Status` still reports version `2` as
pending). -/
theorem pgxUpTo_reapplies_and_records_nothing :
    (pgxUpTo c3Reg c3DB "2").2.1 = ["1", "2"]
    ∧ (pgxUpTo c3Reg c3DB "2").1.history = c3DB.history
    ∧ (pgxUpTo c3Reg c3DB "2").2.2 = none
    ∧ (pgxStatus c3Reg (pgxUpTo c3Reg c3DB "2").1).map
        (fun s => (s.version, s.isApplied)) = [("1", true), ("2", false)] := by
  decide

/-- C4: the claim asserts that `PgxMigrator.DownTo(target)` deletes the
Migration Record of every successfully reverted version, so that exactly the
versions `≤ target` remain recorded.  With versions `1`–`4` applied,
`DownTo("2")` does revert `4` then `3` in descending order, but its loop
contains no DELETE: all four records remain in the history table. -/
theorem pgxDownTo_keeps_all_records :
    (pgxDownTo c4Reg c4DB "2").map
        (fun r => (historyVersions r.1, r.2.1, r.2.2)) =
      some (["1", "2", "3", "4"], ["4", "3"], none) := by decide

/-- C5 counterexample: the claim asserts that a version present only in the
persisted store is surfaced by `Status()`.  With the orphan record `005` in
the store and only `001` registered, no entry of the result carries version
`005` — the orphan is dropped. -/
theorem pgxStatus_drops_orphan_record :
    "005" ∈ historyVersions c5DB
    ∧ "005" ∉ c5Reg.map Prod.fst
    ∧ ∀ s ∈ pgxStatus c5Reg c5DB, s.version ≠ "005" := by decide

/-- C7: the claim asserts that the bun `PostgresMigrator.Up` applies pending
migrations in ascending version order.  The code collects pending versions by
bare map iteration and never sorts them: with iteration order
`003, 001, 002` the units execute in exactly that order. -/
theorem bunUp_map_iteration_order :
    (bunUp c7Reg c7DB).2.1 = ["003", "001", "002"]
    ∧ (bunUp c7Reg c7DB).2.1 ≠ ["001", "002", "003"] := by decide

/-- C6: `PgxMigrator.Down()` on an empty history table succeeds as a no-op;
when the highest recorded version is absent from the registry it returns a
"migration not found" error and changes nothing; otherwise it runs the unit's
`down` action and deletes its record in one transaction, and when either step
fails it rolls back, leaving the database (and in particular the record)
intact. -/
theorem pgxDown_spec (m : Migrations) (db : DB) :
    (db.history = [] → pgxDown m db = (db, ([], none)))
    ∧ (∀ v, maxStr (historyVersions db) = some v → lookupMig m v = none →
        pgxDown m db = (db, ([], some (MErr.notFound v))))
    ∧ (∀ v mig, maxStr (historyVersions db) = some v → lookupMig m v = some mig →
        (mig.downFails = true →
          pgxDown m db = (db, ([v], some (MErr.downFailed v))))
        ∧ (mig.downFails = false → v ∈ db.failDelete →
          pgxDown m db = (db, ([v], some (MErr.deleteFailed v))))
        ∧ (mig.downFails = false → v ∉ db.failDelete →
          pgxDown m db =
            ({ db with
                schema := db.schema ++ mig.downEffects,
                history := db.history.filter (fun r => !(r.version == v)) },
             ([v], none)))) := by
  refine ⟨?_, ?_, ?_⟩
  · intro h
    simp [pgxDown, historyVersions, h, maxStr]
  · intro v hm habs
    simp [pgxDown, hm, habs]
  · intro v mig hm hmig
    refine ⟨?_, ?_, ?_⟩
    · intro hd
      simp [pgxDown, hm, hmig, hd]
    · intro hd hdel
      simp [pgxDown, hm, hmig, hd, hdel]
    · intro hd hdel
      simp [pgxDown, hm, hmig, hd, hdel]

/-- C6 witness: with history containing only version `005` and an empty
registry, `Down()` fails with the not-found error for `005` and leaves the
database unchanged. -/
theorem pgxDown_spec_witness :
    pgxDown ([] : Migrations) c6DB = (c6DB, ([], some (MErr.notFound "005"))) :=
  (pgxDown_spec [] c6DB).2.1 "005" (by decide) (by decide)

/-- C9: `PgxMigrator.Version()` on an empty history table returns the empty
version together with no error (the empty state is not an error), and
otherwise returns the highest recorded version, again with no error. -/
theorem pgxVersion_spec (db : DB) :
    (db.history = [] → pgxVersion db = ("", none))
    ∧ (∀ v ∈ historyVersions db, v ≤ (pgxVersion db).1)
    ∧ (db.history ≠ [] →
        (pgxVersion db).1 ∈ historyVersions db ∧ (pgxVersion db).2 = none) := by
  refine ⟨?_, ?_, ?_⟩
  · intro h
    simp [pgxVersion, historyVersions, h, maxStr]
  · intro v hv
    cases hm : maxStr (historyVersions db) with
    | none =>
      rw [maxStr_eq_none] at hm
      rw [hm] at hv
      cases hv
    | some w =>
      have hfst : (pgxVersion db).1 = w := by simp [pgxVersion, hm]
      rw [hfst]
      exact maxStr_le _ w hm v hv
  · intro h
    have hne : historyVersions db ≠ [] := by
      simpa [historyVersions] using h
    cases hm : maxStr (historyVersions db) with
    | none => exact absurd ((maxStr_eq_none _).mp hm) hne
    | some w =>
      constructor
      · have hfst : (pgxVersion db).1 = w := by simp [pgxVersion, hm]
        rw [hfst]
        exact maxStr_mem _ w hm
      · simp [pgxVersion, hm]

/-- C9 witness: on an empty history table, `Version()` returns the empty
version and no error. -/
theorem pgxVersion_spec_witness : pgxVersion c9DB = ("", none) :=
  (pgxVersion_spec c9DB).1 (by decide)

/-- C2: `PgxMigrator.Up()` ensures the history table exists, computes the
pending set as the registry entries minus the recorded versions, sorts it
ascending as strings, and runs it in order, committing each version's body
together with its timestamped record; when every step succeeds the whole
sorted pending list is committed, and when the sorted pending list splits as
a successful prefix `g` followed by a failing step `b`, exactly `g` is
committed, `b`'s transaction contributes nothing, later versions are not
attempted, and the error wrapping `b`'s version is returned. -/
theorem pgxUp_spec (m : Migrations) (db : DB) :
    (pgxUp m db).1.tableExists = true
    ∧ List.Pairwise (fun a b : String × Migration => a.1 ≤ b.1) (pendingPairs m db)
    ∧ (pendingPairs m db).Perm
        (m.filter (fun p => !((historyVersions db).contains p.1)))
    ∧ ((∀ p ∈ pendingPairs m db, stepOK db.failInsert p = true) →
        pgxUp m db =
          (commitAll { db with tableExists := true } (pendingPairs m db),
            ((pendingPairs m db).map Prod.fst, none)))
    ∧ (∀ g b r, pendingPairs m db = g ++ b :: r →
        (∀ p ∈ g, stepOK db.failInsert p = true) →
        stepOK db.failInsert b = false →
        pgxUp m db =
          (commitAll { db with tableExists := true } g,
            (g.map Prod.fst ++ [b.1], some (stepErr b)))) := by
  refine ⟨?_, ?_, ?_, ?_, ?_⟩
  · exact upRun_tableExists (pendingPairs m { db with tableExists := true })
      { db with tableExists := true }
  · have hs : List.Sorted (fun a b : String × Migration => strLe a.1 b.1 = true)
        (pendingPairs m db) := by
      haveI : IsTotal (String × Migration) (fun a b => strLe a.1 b.1 = true) :=
        ⟨fun a b => by
          rcases le_total a.1 b.1 with h | h
          · exact Or.inl ((strLe_iff _ _).mpr h)
          · exact Or.inr ((strLe_iff _ _).mpr h)⟩
      haveI : IsTrans (String × Migration) (fun a b => strLe a.1 b.1 = true) :=
        ⟨fun a b c h1 h2 =>
          (strLe_iff _ _).mpr (le_trans ((strLe_iff _ _).mp h1) ((strLe_iff _ _).mp h2))⟩
      exact List.sorted_insertionSort _ _
    exact hs.imp (fun h => (strLe_iff _ _).mp h)
  · exact List.perm_insertionSort _ _
  · intro h
    exact upRun_all_ok (pendingPairs m db) { db with tableExists := true } h
  · intro g b r hsplit hg hb
    show upRun { db with tableExists := true } (pendingPairs m db) = _
    rw [hsplit]
    exact upRun_split g { db with tableExists := true } b r hg hb

/-- C2 witness: with the registry `{001 ↦ ok, 002 ↦ failing}` on an empty
database, `Up()` commits `001` and stops at `002` with its error. -/
theorem pgxUp_spec_witness :
    pgxUp c2Reg c2DB =
      (commitAll { c2DB with tableExists := true } [("001", c2MigOK)],
        (["001", "002"], some (MErr.execFailed "002"))) := by
  have h := (pgxUp_spec c2Reg c2DB).2.2.2.2 [("001", c2MigOK)] ("002", c2MigBad) []
    (by decide) (by decide) (by decide)
  exact h.trans (by decide)

/-- Writing `true` into an already-set table-existence flag is the
identity. -/
theorem DB.update_tableExists_self (db : DB) (h : db.tableExists = true) :
    { db with tableExists := true } = db := by
  cases db
  simp_all

/-- C8: when a run of `PgxMigrator.Up()` succeeds, running `Up()` again with
the same registry invokes no migration body, inserts no record, returns
success, and leaves the database exactly as the first run left it. -/
theorem pgxUp_idempotent (m : Migrations) (db : DB)
    (h : (pgxUp m db).2.2 = none) :
    pgxUp m (pgxUp m db).1 = ((pgxUp m db).1, ([], none)) := by
  have hte : (pgxUp m db).1.tableExists = true :=
    upRun_tableExists (pendingPairs m { db with tableExists := true })
      { db with tableExists := true }
  have hhist : historyVersions (pgxUp m db).1 =
      historyVersions db ++ (pendingPairs m db).map Prod.fst :=
    upRun_err_none (pendingPairs m { db with tableExists := true })
      { db with tableExists := true } h
  have hkeys : ∀ p ∈ m, p.1 ∈ historyVersions (pgxUp m db).1 := by
    intro p hp
    rw [hhist]
    by_cases hcon : (historyVersions db).contains p.1
    · exact List.mem_append_left _ (by simpa using hcon)
    · have hfil : p ∈ m.filter (fun q => !((historyVersions db).contains q.1)) :=
        List.mem_filter.mpr ⟨hp, by simpa using hcon⟩
      have hpend : p ∈ pendingPairs m db := (List.mem_insertionSort _).mpr hfil
      exact List.mem_append_right _ (List.mem_map_of_mem Prod.fst hpend)
  have hfilter2 :
      m.filter (fun p => !((historyVersions (pgxUp m db).1).contains p.1)) = [] := by
    rw [List.filter_eq_nil_iff]
    intro p hp
    simp [hkeys p hp]
  have hpend2 : pendingPairs m (pgxUp m db).1 = [] := by
    unfold pendingPairs
    rw [hfilter2]
    rfl
  have hdb : { (pgxUp m db).1 with tableExists := true } = (pgxUp m db).1 :=
    DB.update_tableExists_self _ hte
  show upRun { (pgxUp m db).1 with tableExists := true }
      (pendingPairs m (pgxUp m db).1) = _
  rw [hpend2, hdb]
  rfl

/-- C8 witness: a registry with one succeeding migration on an empty
database; the second `Up()` run applies nothing and succeeds. -/
theorem pgxUp_idempotent_witness :
    pgxUp c8Reg (pgxUp c8Reg c8DB).1 = ((pgxUp c8Reg c8DB).1, ([], none)) :=
  pgxUp_idempotent c8Reg c8DB (by decide)

/-- The version projection of a `Status` row is the registry version it was
built from. -/
theorem statusEntry_version (db : DB) (p : String × Migration) :
    (statusEntry db p).version = p.1 := by
  unfold statusEntry
  cases db.history.find? (fun r => r.version == p.1) <;> rfl

/-- C5 amended: `PgxMigrator.Status()` returns exactly one entry per registry
entry, ordered ascending by version, each joined with its persisted record
(name, executed_at, isApplied) when one exists; versions present only in the
persisted store are dropped from the result, not surfaced. -/
theorem pgxStatus_spec (m : Migrations) (db : DB) :
    List.Pairwise (fun a b : MigrationStatus => a.version ≤ b.version) (pgxStatus m db)
    ∧ ((pgxStatus m db).map MigrationStatus.version).Perm (m.map Prod.fst)
    ∧ (∀ s ∈ pgxStatus m db, s.version ∈ m.map Prod.fst)
    ∧ (∀ s ∈ pgxStatus m db,
        (s.isApplied = true → ∃ r ∈ db.history, r.version = s.version ∧
          s.name = r.name ∧ s.executedAt = some r.executedAt)
        ∧ (s.isApplied = false → s.executedAt = none ∧
          (∀ r ∈ db.history, r.version ≠ s.version) ∧
          ∃ mig, (s.version, mig) ∈ m ∧ s.name = mig.name)) := by
  have hmem : ∀ s : MigrationStatus,
      s ∈ pgxStatus m db ↔ s ∈ m.map (statusEntry db) :=
    fun s => List.mem_insertionSort _
  refine ⟨?_, ?_, ?_, ?_⟩
  · have hs : List.Sorted (fun a b : MigrationStatus => strLe a.version b.version = true)
        (pgxStatus m db) := by
      haveI : IsTotal MigrationStatus (fun a b => strLe a.version b.version = true) :=
        ⟨fun a b => by
          rcases le_total a.version b.version with h | h
          · exact Or.inl ((strLe_iff _ _).mpr h)
          · exact Or.inr ((strLe_iff _ _).mpr h)⟩
      haveI : IsTrans MigrationStatus (fun a b => strLe a.version b.version = true) :=
        ⟨fun a b c h1 h2 =>
          (strLe_iff _ _).mpr (le_trans ((strLe_iff _ _).mp h1) ((strLe_iff _ _).mp h2))⟩
      exact List.sorted_insertionSort _ _
    exact hs.imp (fun h => (strLe_iff _ _).mp h)
  · have hperm := (List.perm_insertionSort
      (fun a b : MigrationStatus => strLe a.version b.version = true)
      (m.map (statusEntry db))).map MigrationStatus.version
    have heq : (m.map (statusEntry db)).map MigrationStatus.version = m.map Prod.fst := by
      rw [List.map_map]
      exact List.map_congr_left (fun p _ => statusEntry_version db p)
    exact heq ▸ hperm
  · intro s hs
    obtain ⟨p, hpm, hps⟩ := List.mem_map.mp ((hmem s).mp hs)
    rw [← hps, statusEntry_version]
    exact List.mem_map_of_mem Prod.fst hpm
  · intro s hs
    obtain ⟨p, hpm, hps⟩ := List.mem_map.mp ((hmem s).mp hs)
    subst hps
    unfold statusEntry
    cases hf : db.history.find? (fun r => r.version == p.1) with
    | some r =>
      refine ⟨fun _ => ⟨r, List.mem_of_find?_eq_some hf, ?_, rfl, rfl⟩, fun hfalse => ?_⟩
      · simpa using List.find?_some hf
      · simp at hfalse
    | none =>
      refine ⟨fun htrue => ?_, fun _ => ⟨rfl, ?_, ⟨p.2, ?_, rfl⟩⟩⟩
      · simp at htrue
      · intro r hr
        have := List.find?_eq_none.mp hf r hr
        simpa using this
      · rw [Prod.mk.eta]
        exact hpm

/-- C5 amended witness: the registry entry `001` appears in the result and
its version is a registry version. -/
theorem pgxStatus_spec_witness :
    (⟨"001", "m1", some 0, true⟩ : MigrationStatus).version ∈ c5Reg.map Prod.fst :=
  (pgxStatus_spec c5Reg c5DB).2.2.1 _ (by decide)

/-- C10: in `PgxMigrator.DownTo(target)`, a recorded version greater than the
target that is missing from the migrations map is looked up with no presence
check, yielding a nil interface whose `Down` is invoked — a panic, so the
operation is not total (modelled as `none`); `Down()` by contrast checks the
registry and returns the "migration not found" error for the same state. -/
theorem pgxDownTo_missing_version_panics (m : Migrations) (db : DB)
    (target v : String)
    (hmem : v ∈ historyVersions db)
    (hgt : target < v)
    (hmax : ∀ w ∈ historyVersions db, w ≤ v)
    (habs : lookupMig m v = none) :
    pgxDownTo m db target = none
    ∧ pgxDown m db = (db, ([], some (MErr.notFound v))) := by
  constructor
  · have hvfil : v ∈ (historyVersions db).filter (fun w => strLt target w) :=
      List.mem_filter.mpr ⟨hmem, (strLt_iff target v).mpr hgt⟩
    have hvdv : v ∈ downVersions db target := (List.mem_insertionSort _).mpr hvfil
    have hsorted : List.Sorted (fun a b : String => strLe b a = true)
        (downVersions db target) := by
      haveI : IsTotal String (fun a b => strLe b a = true) :=
        ⟨fun a b => by
          rcases le_total b a with h | h
          · exact Or.inl ((strLe_iff _ _).mpr h)
          · exact Or.inr ((strLe_iff _ _).mpr h)⟩
      haveI : IsTrans String (fun a b => strLe b a = true) :=
        ⟨fun a b c h1 h2 =>
          (strLe_iff _ _).mpr (le_trans ((strLe_iff _ _).mp h2) ((strLe_iff _ _).mp h1))⟩
      exact List.sorted_insertionSort _ _
    cases hdv : downVersions db target with
    | nil =>
      rw [hdv] at hvdv
      cases hvdv
    | cons hd t =>
      have hh : hd = v := by
        have hhdv : hd ∈ downVersions db target := by
          rw [hdv]
          exact List.mem_cons_self _ _
        have hhfil := (List.mem_insertionSort _).mp hhdv
        have hhmem : hd ∈ historyVersions db := (List.mem_filter.mp hhfil).1
        have h1 : hd ≤ v := hmax hd hhmem
        rw [hdv] at hvdv
        rcases List.mem_cons.mp hvdv with rfl | hvt
        · rfl
        · rw [hdv] at hsorted
          have h2 : strLe v hd = true := (List.pairwise_cons.mp hsorted).1 v hvt
          exact le_antisymm h1 ((strLe_iff v hd).mp h2)
      show downToRun m db (downVersions db target) = none
      rw [hdv, hh]
      simp [downToRun, habs]
  · have hm : maxStr (historyVersions db) = some v := maxStr_eq_some _ v hmem hmax
    simp [pgxDown, hm, habs]

/-- C10 witness: history contains only `005`, the registry is empty, the
target is `002`: `DownTo` panics (is undefined) while `Down` returns the
not-found error. -/
theorem pgxDownTo_missing_version_panics_witness :
    pgxDownTo ([] : Migrations) c10DB "002" = none
    ∧ pgxDown ([] : Migrations) c10DB = (c10DB, ([], some (MErr.notFound "005"))) :=
  pgxDownTo_missing_version_panics [] c10DB "002" "005"
    (by decide)
    ((strLt_iff "002" "005").mp (by decide))
    (by
      intro w hw
      have hww : w = "005" := by simpa [c10DB, historyVersions] using hw
      rw [hww])
    (by decide)
